import Mathlib

/-!
Verification of the Subject-Aware Crop Planner (src/advanced_smart_crop.py).

Shallow embedding conventions:
* Python numbers (ints and floats) are modelled as exact rationals `ℚ`;
  pixel coordinates produced by `int(...)` truncation are `ℤ`.
* `int(x)` (truncation toward zero) is `pyTrunc`; the Python floor division
  `//` on numbers is `pyDiv` / `ratFloor` (`Int.fdiv` semantics).
* The mutable `self.tracking_history` deque (maxlen 10) is threaded
  explicitly as a `List (ℤ × ℤ)` state value, oldest entry first.
* `np.argsort(scores)[::-1]` is modelled as a stable ascending insertion
  sort followed by reversal (the numpy small-array sort is a stable
  insertion sort), realised directly by `insertDesc`/`sortDesc` which put
  equal keys in reversed input order, exactly as `[::-1]` of a stable
  ascending sort does.
* numpy float division by zero yields `inf`/`nan` rather than raising;
  `overlapExceeds` reproduces the resulting comparison behaviour
  (`inf > t` is true, `nan > t` is false) without leaving `ℚ`.
-/

set_option maxRecDepth 8000

namespace SmartCrop

open scoped List

/-- Python `int(q)`: truncation toward zero (`q.den` is positive, and
`Int.tdiv` truncates toward zero). -/
def pyTrunc (q : ℚ) : ℤ := q.num.tdiv q.den

/-- Python float floor division by an exact value: `math.floor(q)`
(`Int.ediv` with the positive denominator `q.den` is floor division). -/
def ratFloor (q : ℚ) : ℤ := q.num.ediv q.den

/-- Python `a // b` on integers: floor division. -/
def pyDiv (a b : ℤ) : ℤ := a.fdiv b

/-- A raw detection `(x, y, w, h, confidence)` as produced by
`detect_all_faces` and consumed by the planner. -/
structure Det where
  x : ℚ
  y : ℚ
  w : ℚ
  h : ℚ
  conf : ℚ
deriving DecidableEq

/-- Box area `(x2 - x1) * (y2 - y1)` of a detection. -/
def area (d : Det) : ℚ := d.w * d.h

/-- Intersection area of two detections, as computed in
`non_max_suppression` lines 110-117: clamped overlap of the two
axis-aligned boxes. -/
def interArea (a b : Det) : ℚ :=
  max 0 (min (a.x + a.w) (b.x + b.w) - max a.x b.x) *
    max 0 (min (a.y + a.h) (b.y + b.h) - max a.y b.y)

/-- Line 118-120: `overlap = (w * h) / area_kept; overlap > thresh`.
When the kept area is zero, numpy produces `inf` (intersection positive)
or `nan` (intersection zero); `inf > t` holds, `nan > t` does not. -/
def overlapExceeds (i ar t : ℚ) : Bool :=
  if ar = 0 then decide (0 < i) else decide (t < i / ar)

/-- Line 120: drop every remaining candidate whose overlap with the kept
box `d` exceeds the threshold. -/
def suppress (t : ℚ) (d : Det) (cands : List Det) : List Det :=
  cands.filter fun c => !overlapExceeds (interArea d c) (area d) t

/-- The `while len(idxs) > 0` loop of lines 105-120, with explicit fuel;
the filtered worklist never grows, so fuel equal to the initial list
length is always sufficient. -/
def nmsLoop (t : ℚ) : ℕ → List Det → List Det
  | _, [] => []
  | 0, _ :: _ => []
  | fuel + 1, d :: rest => d :: nmsLoop t fuel (suppress t d rest)

/-- Insertion step of the descending confidence sort; an element is
placed before every earlier element of equal confidence, matching
`np.argsort(scores)[::-1]` (reverse of a stable ascending sort). -/
def insertDesc (d : Det) : List Det → List Det
  | [] => [d]
  | c :: rest => if d.conf < c.conf then c :: insertDesc d rest else d :: c :: rest

/-- Line 102: sort detections by confidence, descending; ties end up in
reversed input order as with `[::-1]` of a stable ascending sort. -/
def sortDesc (l : List Det) : List Det := l.foldl (fun acc d => insertDesc d acc) []

/-- Lines 88-122: greedy non-maximum suppression, keeping boxes in
processing (descending confidence) order. -/
def non_max_suppression (t : ℚ) (faces : List Det) : List Det :=
  nmsLoop t faces.length (sortDesc faces)

/-- Default `overlap_thresh=0.3` of line 88. -/
def overlap_thresh : ℚ := 3 / 10

/-- Line 142: `weight = w * h * confidence`. -/
def weightOf (d : Det) : ℚ := d.w * d.h * d.conf

/-- Line 143: `center_x = x + w // 2` (floor division). -/
def centerXOf (d : Det) : ℚ := d.x + (ratFloor (d.w / 2) : ℚ)

/-- Line 144: `center_y = y + h // 2` (floor division). -/
def centerYOf (d : Det) : ℚ := d.y + (ratFloor (d.h / 2) : ℚ)

/-- Lines 133-148: accumulated `total_weight`. -/
def totalWeight (faces : List Det) : ℚ := (faces.map weightOf).sum

/-- Lines 133-148: accumulated `total_x`. -/
def totalX (faces : List Det) : ℚ := (faces.map fun d => centerXOf d * weightOf d).sum

/-- Lines 133-148: accumulated `total_y`. -/
def totalY (faces : List Det) : ℚ := (faces.map fun d => centerYOf d * weightOf d).sum

/-- `deque(maxlen=10).append`: drop the oldest entry once the capacity
is reached (callers maintain `hist.length ≤ 10`). -/
def pushHistory (hist : List (ℤ × ℤ)) (p : ℤ × ℤ) : List (ℤ × ℤ) :=
  if hist.length < 10 then hist ++ [p] else hist.tail ++ [p]

/-- `int(np.mean(xs[-3:]))`: truncated mean of the last three entries. -/
def meanLast3 (xs : List ℤ) : ℤ :=
  pyTrunc (((xs.drop (xs.length - 3)).sum : ℚ) / 3)

/-- Lines 124-171, `calculate_smooth_focus`: returns the emitted focus
point together with the updated tracking history. -/
def calculate_smooth_focus (faces : List Det) (fw fh : ℤ) (hist : List (ℤ × ℤ)) :
    (ℤ × ℤ) × List (ℤ × ℤ) :=
  match faces with
  | [] =>
    match hist.getLast? with
    | some p => (p, hist)
    | none => ((pyDiv fw 2, pyDiv fh 2), hist)
  | _ :: _ =>
    let tw := totalWeight faces
    let nx := if 0 < tw then pyTrunc (totalX faces / tw) else pyDiv fw 2
    let ny := if 0 < tw then pyTrunc (totalY faces / tw) else pyDiv fh 2
    let hist2 := pushHistory hist (nx, ny)
    (if 3 ≤ hist2.length then
      (meanLast3 (hist2.map Prod.fst), meanLast3 (hist2.map Prod.snd))
    else (nx, ny), hist2)

/-- The `mode` strings of the emitted crop dictionaries:
`letterbox`, `smart`, `smart_smooth`. -/
inductive Mode where
  | letterbox
  | smart
  | smart_smooth
deriving DecidableEq

/-- The crop dictionary emitted by the planner (`mode`, `crop_x`,
`crop_y`, `crop_w`, `crop_h`, `letterbox`, `face_count`). -/
structure CropPlan where
  mode : Mode
  crop_x : ℤ
  crop_y : ℤ
  crop_w : ℤ
  crop_h : ℤ
  letterbox : Bool
  face_count : ℕ
deriving DecidableEq

/-- Python `min` of a nonempty list (the `[]` case is never reached by
the source, which only takes minima of nonempty comprehensions). -/
def listMin : List ℚ → ℚ
  | [] => 0
  | q :: qs => qs.foldl min q

/-- Python `max` of a nonempty list. -/
def listMax : List ℚ → ℚ
  | [] => 0
  | q :: qs => qs.foldl max q

/-- Lines 192-197: width of the bounding box enclosing all detections. -/
def groupW (faces : List Det) : ℚ :=
  listMax (faces.map fun d => d.x + d.w) - listMin (faces.map fun d => d.x)

/-- Lines 193-198: height of the bounding box enclosing all detections. -/
def groupH (faces : List Det) : ℚ :=
  listMax (faces.map fun d => d.y + d.h) - listMin (faces.map fun d => d.y)

/-- `max(lo, min(v, hi))` clamping of lines 225-226 and 261-262. -/
def clamp (v lo hi : ℤ) : ℤ := max lo (min v hi)

/-- Lines 173-274, `calculate_dynamic_crop`.  The aspect-ratio string
`"aw:ah"` is passed as the two parsed numbers `aw`, `ah`; the nested
guards of lines 187-209 (`target_aspect < 1 and len(faces) >= 2`, then
`face_group_height > 0`, then `face_aspect > 1.5 and
horizontal_separation > 0.4`) collapse into one conjunction: whenever a
guard fails control falls through to the standard branch, and the
short-circuited divisions are total in `ℚ`, with `groupH = 0` already
rejected by its own conjunct.  Returns the optional crop plan and the
updated tracking history (mutated by the `calculate_smooth_focus` call
of line 183). -/
def calculate_dynamic_crop (faces : List Det) (fw fh : ℤ) (aw ah : ℚ)
    (hist : List (ℤ × ℤ)) : Option CropPlan × List (ℤ × ℤ) :=
  match faces with
  | [] => (none, hist)
  | _ :: _ =>
    let ta := aw / ah
    let fp := calculate_smooth_focus faces fw fh hist
    if ta < 1 ∧ 2 ≤ faces.length ∧ 0 < groupH faces ∧
        3 / 2 < groupW faces / groupH faces ∧ 2 / 5 < groupW faces / (fw : ℚ) then
      let lw0 := pyTrunc ((fh : ℚ) * 16 / 9)
      let lw := if fw < lw0 then fw else lw0
      let lh := if fw < lw0 then pyTrunc ((fw : ℚ) * 9 / 16) else fh
      (some ⟨Mode.letterbox,
        clamp (fp.1.1 - pyDiv lw 2) 0 (fw - lw),
        clamp (fp.1.2 - pyDiv lh 2) 0 (fh - lh),
        lw, lh, true, faces.length⟩, fp.2)
    else
      let tw := if (fw : ℚ) / (fh : ℚ) < ta then fw else pyTrunc ((fh : ℚ) * ta)
      let th := if (fw : ℚ) / (fh : ℚ) < ta then pyTrunc ((fw : ℚ) / ta) else fh
      (some ⟨Mode.smart,
        clamp (fp.1.1 - pyDiv tw 2) 0 (fw - tw),
        clamp (fp.1.2 - pyDiv th 2) 0 (fh - th),
        tw, th, false, faces.length⟩, fp.2)

/-- Accumulated state of the sampling loop of lines 296-315: the crop
candidates and per-sample face counts gathered so far, plus the tracker
history. -/
structure LoopState where
  crops : List CropPlan
  counts : List ℕ
  hist : List (ℤ × ℤ)
deriving DecidableEq

/-- Lines 307-315, the body run for one successfully read frame:
record the face count, and when faces were found run the planner and
keep its candidate. -/
def stepSample (fw fh : ℤ) (aw ah : ℚ) (st : LoopState) (faces : List Det) : LoopState :=
  match faces with
  | [] => ⟨st.crops, st.counts ++ [faces.length], st.hist⟩
  | _ :: _ =>
    let r := calculate_dynamic_crop faces fw fh aw ah st.hist
    match r.1 with
    | some c => ⟨st.crops ++ [c], st.counts ++ [faces.length], r.2⟩
    | none => ⟨st.crops, st.counts ++ [faces.length], r.2⟩

/-- Lines 299-315: the sampling loop.  Each list entry is the outcome of
one `cap.read()`: `none` models `ret == False`, on which the source
executes `break`, abandoning all later samples. -/
def controllerLoop (fw fh : ℤ) (aw ah : ℚ) :
    List (Option (List Det)) → LoopState → LoopState
  | [], st => st
  | none :: _, st => st
  | some faces :: rest, st => controllerLoop fw fh aw ah rest (stepSample fw fh aw ah st faces)

/-- Insertion step of the ascending Python `sorted` on integers. -/
def insertAsc (n : ℤ) : List ℤ → List ℤ
  | [] => [n]
  | m :: rest => if m ≤ n then m :: insertAsc n rest else n :: m :: rest

/-- Python `sorted` on a list of integers (any correct ascending sort
yields the same value list over a total order). -/
def sortInt (l : List ℤ) : List ℤ := l.foldl (fun acc n => insertAsc n acc) []

/-- Line 324: `np.mean(face_counts) if face_counts else 0`. -/
def avgCount (counts : List ℕ) : ℚ :=
  if counts = [] then 0 else (counts.sum : ℚ) / (counts.length : ℚ)

/-- Lines 319-365: reduce the gathered candidates to the final decision.
`letterbox_rate` divides by the number of candidates (samples that
produced a crop); the hysteresis test is `avg_faces >= 2.0 and
letterbox_rate > 0.6`; on success the temporally middle eligible
candidate is returned, otherwise the independent per-field medians of
`x, y, w, h` over ALL candidates (letterbox-eligible ones included)
form a `smart_smooth` plan. -/
def aggregate (cs : List CropPlan) (counts : List ℕ) : Option CropPlan :=
  match cs with
  | [] => none
  | _ :: _ =>
    let elig := cs.filter fun c => c.letterbox
    if 2 ≤ avgCount counts ∧ 3 / 5 < (elig.length : ℚ) / (cs.length : ℚ) then
      elig.get? (elig.length / 2)
    else
      let mi := cs.length / 2
      some ⟨Mode.smart_smooth,
        (sortInt (cs.map fun c => c.crop_x)).getD mi 0,
        (sortInt (cs.map fun c => c.crop_y)).getD mi 0,
        (sortInt (cs.map fun c => c.crop_w)).getD mi 0,
        (sortInt (cs.map fun c => c.crop_h)).getD mi 0,
        false, 1⟩

/-- Lines 276-365, `analyze_video_smooth`, over an abstract frame
source: `samples` lists the successive `cap.read()` outcomes (frame
extraction and the cascade detectors are external collaborators).  The
incoming `hist` is the tracker history of the `AdvancedSmartCropper`
instance at call time: the source keeps a single module-global instance
(line 422) whose history is never reset between analyses.  Returns the
final decision and the history the instance is left with. -/
def analyze_video_smooth (fw fh : ℤ) (aw ah : ℚ) (samples : List (Option (List Det)))
    (hist : List (ℤ × ℤ)) : Option CropPlan × List (ℤ × ℤ) :=
  let st := controllerLoop fw fh aw ah samples ⟨[], [], hist⟩
  (aggregate st.crops st.counts, st.hist)

/-! ### Supporting lemmas about non-maximum suppression -/

theorem nmsLoop_sublist (t : ℚ) : ∀ (fuel : ℕ) (l : List Det), nmsLoop t fuel l <+ l
  | _, [] => by simp [nmsLoop]
  | 0, _ :: _ => by simp [nmsLoop]
  | fuel + 1, d :: rest => by
    simp only [nmsLoop]
    exact List.Sublist.cons₂ d ((nmsLoop_sublist t fuel _).trans (List.filter_sublist rest))

theorem nmsLoop_pairwise (t : ℚ) : ∀ (fuel : ℕ) (l : List Det),
    (nmsLoop t fuel l).Pairwise fun a b => overlapExceeds (interArea a b) (area a) t = false
  | _, [] => by simp [nmsLoop]
  | 0, _ :: _ => by simp [nmsLoop]
  | fuel + 1, d :: rest => by
    simp only [nmsLoop, List.pairwise_cons]
    refine ⟨fun b hb => ?_, nmsLoop_pairwise t fuel _⟩
    have hb2 : b ∈ suppress t d rest := (nmsLoop_sublist t fuel _).subset hb
    have := (List.mem_filter.mp hb2).2
    simpa using this

theorem insertDesc_perm (d : Det) : ∀ l : List Det, insertDesc d l ~ d :: l
  | [] => List.Perm.refl _
  | c :: rest => by
    simp only [insertDesc]
    split
    · exact ((insertDesc_perm d rest).cons c).trans (List.Perm.swap d c rest)
    · exact List.Perm.refl _

theorem sortDesc_perm (l : List Det) : sortDesc l ~ l := by
  suffices h : ∀ (l acc : List Det),
      List.foldl (fun acc d => insertDesc d acc) acc l ~ acc ++ l by
    simpa using h l []
  intro l
  induction l with
  | nil => intro acc; simp
  | cons d tl ih =>
    intro acc
    calc List.foldl (fun acc d => insertDesc d acc) acc (d :: tl)
        = List.foldl (fun acc d => insertDesc d acc) (insertDesc d acc) tl := rfl
      _ ~ insertDesc d acc ++ tl := ih _
      _ ~ (d :: acc) ++ tl := (insertDesc_perm d acc).append_right tl
      _ ~ acc ++ d :: tl := List.perm_middle.symm

theorem insertDesc_pairwise {l : List Det} (h : l.Pairwise fun a b => b.conf ≤ a.conf)
    (d : Det) : (insertDesc d l).Pairwise fun a b => b.conf ≤ a.conf := by
  induction l with
  | nil => simp [insertDesc]
  | cons c rest ih =>
    rw [List.pairwise_cons] at h
    simp only [insertDesc]
    split
    · rename_i hlt
      rw [List.pairwise_cons]
      refine ⟨fun e he => ?_, ih h.2⟩
      rcases List.mem_cons.mp ((insertDesc_perm d rest).mem_iff.mp he) with rfl | he2
      · exact le_of_lt hlt
      · exact h.1 e he2
    · rename_i hnlt
      rw [List.pairwise_cons]
      refine ⟨fun e he => ?_, List.pairwise_cons.mpr h⟩
      rcases List.mem_cons.mp he with rfl | he2
      · exact le_of_not_lt hnlt
      · exact le_trans (h.1 e he2) (le_of_not_lt hnlt)

theorem sortDesc_pairwise (l : List Det) :
    (sortDesc l).Pairwise fun a b => b.conf ≤ a.conf := by
  suffices h : ∀ (l acc : List Det), (acc.Pairwise fun a b => b.conf ≤ a.conf) →
      (List.foldl (fun acc d => insertDesc d acc) acc l).Pairwise fun a b => b.conf ≤ a.conf by
    exact h l [] (List.Pairwise.nil)
  intro l
  induction l with
  | nil => intro acc hacc; simpa using hacc
  | cons d tl ih => intro acc hacc; exact ih _ (insertDesc_pairwise hacc d)

/-- C2: the list kept by non-max suppression at the default threshold 0.3
never contains two detections whose overlap ratio, intersection area over
the area of the kept (earlier, hence higher-or-equal-confidence) box as the
source computes it, exceeds the threshold: pairwise along the output (in
kept order, confidences non-increasing) the `overlap > thresh` test of
line 120 is false. -/
theorem nms_overlap_invariant (faces : List Det) :
    (non_max_suppression overlap_thresh faces).Pairwise fun a b =>
      b.conf ≤ a.conf ∧ overlapExceeds (interArea a b) (area a) overlap_thresh = false := by
  have h1 := nmsLoop_pairwise overlap_thresh faces.length (sortDesc faces)
  have h2 : (non_max_suppression overlap_thresh faces).Pairwise
      fun a b => b.conf ≤ a.conf :=
    List.Pairwise.sublist (nmsLoop_sublist overlap_thresh faces.length (sortDesc faces))
      (sortDesc_pairwise faces)
  exact h2.and h1

/-! ### C9: zero-area detections are kept, not excluded -/

theorem interArea_eq_zero_right {c d : Det} (hz : area d = 0) : interArea c d = 0 := by
  rcases mul_eq_zero.mp hz with hw | hh
  · have h1 : min (c.x + c.w) (d.x + d.w) - max c.x d.x ≤ 0 := by
      have ha : min (c.x + c.w) (d.x + d.w) ≤ d.x := by
        calc min (c.x + c.w) (d.x + d.w) ≤ d.x + d.w := min_le_right _ _
          _ = d.x := by rw [hw, add_zero]
      have hb : d.x ≤ max c.x d.x := le_max_right _ _
      linarith
    unfold interArea
    rw [max_eq_left h1, zero_mul]
  · have h1 : min (c.y + c.h) (d.y + d.h) - max c.y d.y ≤ 0 := by
      have ha : min (c.y + c.h) (d.y + d.h) ≤ d.y := by
        calc min (c.y + c.h) (d.y + d.h) ≤ d.y + d.h := min_le_right _ _
          _ = d.y := by rw [hh, add_zero]
      have hb : d.y ≤ max c.y d.y := le_max_right _ _
      linarith
    unfold interArea
    rw [max_eq_left h1, mul_zero]

theorem overlapExceeds_zero_inter (ar t : ℚ) (ht : 0 < t) :
    overlapExceeds 0 ar t = false := by
  unfold overlapExceeds
  split
  · simp
  · simp only [zero_div, decide_eq_false_iff_not, not_lt]
    exact le_of_lt ht

theorem nmsLoop_mem_of_immune (t : ℚ) (d : Det)
    (himm : ∀ c : Det, overlapExceeds (interArea c d) (area c) t = false) :
    ∀ (fuel : ℕ) (l : List Det), l.length ≤ fuel → d ∈ l → d ∈ nmsLoop t fuel l
  | _, [], _, hmem => absurd hmem (List.not_mem_nil d)
  | 0, _ :: _, hlen, _ => by simp at hlen
  | fuel + 1, c :: rest, hlen, hmem => by
    simp only [nmsLoop]
    rcases List.mem_cons.mp hmem with rfl | hr
    · exact List.mem_cons_self _ _
    · refine List.mem_cons_of_mem c (nmsLoop_mem_of_immune t d himm fuel _ ?_ ?_)
      · exact le_trans (List.length_filter_le _ _) (Nat.le_of_succ_le_succ hlen)
      · exact List.mem_filter.mpr ⟨hr, by rw [himm c]; rfl⟩

/-- C9 counterexample: a detection with zero area is NOT excluded by
`non_max_suppression` — the source has no division-by-zero guard, and a
zero-area box survives into the output. -/
theorem c9_counterexample :
    area ⟨0, 0, 0, 5, 1⟩ = 0 ∧
      (⟨0, 0, 0, 5, 1⟩ : Det) ∈ non_max_suppression overlap_thresh [⟨0, 0, 0, 5, 1⟩] := by
  with_unfolding_all decide

/-- C9 amended: a zero-area detection is never excluded: its
intersection with every box is zero, so for any positive threshold the
`0 / 0` overlap (numpy `nan`) never compares above the threshold and the
detection survives suppression by every kept box; NMS stays total. -/
theorem nms_keeps_zero_area (t : ℚ) (ht : 0 < t) (faces : List Det) (d : Det)
    (hd : d ∈ faces) (hz : area d = 0) : d ∈ non_max_suppression t faces := by
  have h1 : d ∈ sortDesc faces := (sortDesc_perm faces).mem_iff.mpr hd
  have hlen : (sortDesc faces).length ≤ faces.length :=
    le_of_eq ((sortDesc_perm faces).length_eq)
  exact nmsLoop_mem_of_immune t d
    (fun c => by rw [interArea_eq_zero_right hz]; exact overlapExceeds_zero_inter _ t ht)
    faces.length _ hlen h1

/-- C9 amended, witness at a concrete input. -/
theorem nms_keeps_zero_area_witness :
    (⟨0, 0, 0, 7, 1⟩ : Det) ∈
      non_max_suppression overlap_thresh [⟨5, 5, 10, 10, 1⟩, ⟨0, 0, 0, 7, 1⟩] :=
  nms_keeps_zero_area overlap_thresh (by with_unfolding_all decide) _ _
    (by with_unfolding_all decide) (by with_unfolding_all decide)

/-! ### C10: idempotence of non-max suppression -/

/-- C10 counterexample: with two equal-confidence boxes the tie order is
reversed on each pass (as `[::-1]` of a stable ascending sort does), so
re-running NMS on its own output can drop a box that the first pass
kept: `dedup(dedup(D)) ≠ dedup(D)`, even as sets. -/
theorem nms_not_idempotent_counterexample :
    non_max_suppression overlap_thresh (non_max_suppression overlap_thresh
        [⟨0, 0, 10, 10, 1/2⟩, ⟨0, 0, 100, 100, 1/2⟩]) ≠
      non_max_suppression overlap_thresh [⟨0, 0, 10, 10, 1/2⟩, ⟨0, 0, 100, 100, 1/2⟩] ∧
    (⟨0, 0, 100, 100, 1/2⟩ : Det) ∈
      non_max_suppression overlap_thresh [⟨0, 0, 10, 10, 1/2⟩, ⟨0, 0, 100, 100, 1/2⟩] ∧
    (⟨0, 0, 100, 100, 1/2⟩ : Det) ∉
      non_max_suppression overlap_thresh (non_max_suppression overlap_thresh
        [⟨0, 0, 10, 10, 1/2⟩, ⟨0, 0, 100, 100, 1/2⟩]) := by
  with_unfolding_all decide

theorem insertDesc_of_gt {d : Det} :
    ∀ {acc : List Det}, (∀ c ∈ acc, d.conf < c.conf) → insertDesc d acc = acc ++ [d]
  | [], _ => rfl
  | c :: rest, h => by
    simp only [insertDesc, if_pos (h c (List.mem_cons_self c rest))]
    rw [insertDesc_of_gt (fun e he => h e (List.mem_cons_of_mem c he))]
    rfl

theorem sortDesc_eq_self {l : List Det}
    (h : l.Pairwise fun a b => b.conf < a.conf) : sortDesc l = l := by
  suffices haux : ∀ (l acc : List Det), ((acc ++ l).Pairwise fun a b => b.conf < a.conf) →
      List.foldl (fun acc d => insertDesc d acc) acc l = acc ++ l by
    simpa using haux l [] (by simpa using h)
  intro l
  induction l with
  | nil => intro acc _; simp
  | cons d tl ih =>
    intro acc hacc
    have hd : ∀ c ∈ acc, d.conf < c.conf := by
      have := (List.pairwise_append.mp hacc).2.2
      exact fun c hc => this c hc d (List.mem_cons_self d tl)
    have hstep : List.foldl (fun acc d => insertDesc d acc) acc (d :: tl) =
        List.foldl (fun acc d => insertDesc d acc) (acc ++ [d]) tl := by
      simp only [List.foldl_cons, insertDesc_of_gt hd]
    rw [hstep, ih (acc ++ [d]) (by simpa using hacc)]
    simp

theorem suppress_eq_self {t : ℚ} {d : Det} {rest : List Det}
    (h : ∀ c ∈ rest, overlapExceeds (interArea d c) (area d) t = false) :
    suppress t d rest = rest :=
  List.filter_eq_self.mpr fun c hc => by rw [h c hc]; rfl

theorem nmsLoop_eq_self (t : ℚ) : ∀ (fuel : ℕ) (l : List Det), l.length ≤ fuel →
    (l.Pairwise fun a b => overlapExceeds (interArea a b) (area a) t = false) →
    nmsLoop t fuel l = l
  | _, [], _, _ => by simp [nmsLoop]
  | 0, _ :: _, hlen, _ => by simp at hlen
  | fuel + 1, d :: rest, hlen, hpw => by
    rw [List.pairwise_cons] at hpw
    simp only [nmsLoop, suppress_eq_self hpw.1]
    rw [nmsLoop_eq_self t fuel rest (Nat.le_of_succ_le_succ hlen) hpw.2]

/-- C10 amended: NMS is idempotent on every detection list whose
confidence values are pairwise distinct; with ties the claim fails (see
the counterexample), because `np.argsort(..)[::-1]` visits equal
confidences in reversed order on the second pass. -/
theorem nms_idempotent_of_distinct_conf (D : List Det)
    (h : D.Pairwise fun a b => a.conf ≠ b.conf) :
    non_max_suppression overlap_thresh (non_max_suppression overlap_thresh D) =
      non_max_suppression overlap_thresh D := by
  have hperm : List.Perm (sortDesc D) D := sortDesc_perm D
  have hne : (sortDesc D).Pairwise fun a b => a.conf ≠ b.conf :=
    (hperm.pairwise_iff fun hab => hab.symm).mpr h
  have hstrict : (sortDesc D).Pairwise fun a b => b.conf < a.conf :=
    ((sortDesc_pairwise D).and hne).imp fun hab => lt_of_le_of_ne hab.1 (Ne.symm hab.2)
  have hstrict_out : (non_max_suppression overlap_thresh D).Pairwise
      fun a b => b.conf < a.conf :=
    List.Pairwise.sublist (nmsLoop_sublist overlap_thresh D.length (sortDesc D)) hstrict
  have hok := nmsLoop_pairwise overlap_thresh D.length (sortDesc D)
  show nmsLoop overlap_thresh (non_max_suppression overlap_thresh D).length
      (sortDesc (non_max_suppression overlap_thresh D)) = _
  rw [sortDesc_eq_self hstrict_out]
  exact nmsLoop_eq_self overlap_thresh _ _ le_rfl hok

/-- C10 amended, witness: the two overlapping boxes of distinct
confidence 0.9 and 0.6 (Scenario C) reach a fixed point after one pass. -/
theorem nms_idempotent_witness :
    non_max_suppression overlap_thresh (non_max_suppression overlap_thresh
        [⟨10, 10, 100, 100, 9/10⟩, ⟨20, 20, 100, 100, 6/10⟩]) =
      non_max_suppression overlap_thresh [⟨10, 10, 100, 100, 9/10⟩, ⟨20, 20, 100, 100, 6/10⟩] :=
  nms_idempotent_of_distinct_conf _ (by with_unfolding_all decide)

/-! ### C5: the temporal focus tracker -/

theorem pushHistory_eq_drop (hist : List (ℤ × ℤ)) (p : ℤ × ℤ) (hcap : hist.length ≤ 10) :
    pushHistory hist p = (hist ++ [p]).drop (hist.length + 1 - 10) := by
  unfold pushHistory
  split
  · rename_i hlt
    have h0 : hist.length + 1 - 10 = 0 := by omega
    rw [h0, List.drop_zero]
  · rename_i hge
    have h10 : hist.length = 10 := by omega
    have h1 : hist.length + 1 - 10 = 1 := by omega
    rw [h1]
    cases hist with
    | nil => simp at h10
    | cons a tl => simp

theorem pushHistory_length_le (hist : List (ℤ × ℤ)) (p : ℤ × ℤ)
    (hcap : hist.length ≤ 10) : (pushHistory hist p).length ≤ 10 := by
  unfold pushHistory
  split
  · rename_i hlt
    simp
    omega
  · simp
    omega

/-- C5: with no detections, `calculate_smooth_focus` holds the last
historical focus point (or the frame centre when history is empty) and
leaves history untouched; with detections of positive total weight it
appends the weighted centroid of the detection centres (weight = area ×
confidence, `int`-truncated) to the capacity-10 FIFO history — oldest
entry evicted once 10 entries exist — and emits the truncated arithmetic
mean of the last 3 history entries once the history holds at least 3,
the raw centroid otherwise. -/
theorem smooth_focus_spec (faces : List Det) (fw fh : ℤ) (hist : List (ℤ × ℤ))
    (hcap : hist.length ≤ 10) :
    (faces = [] →
      calculate_smooth_focus faces fw fh hist =
        (hist.getLastD (pyDiv fw 2, pyDiv fh 2), hist)) ∧
    (faces ≠ [] → 0 < totalWeight faces →
      (calculate_smooth_focus faces fw fh hist).2 =
          (hist ++ [(pyTrunc (totalX faces / totalWeight faces),
            pyTrunc (totalY faces / totalWeight faces))]).drop (hist.length + 1 - 10) ∧
      (calculate_smooth_focus faces fw fh hist).2.length ≤ 10 ∧
      (3 ≤ (calculate_smooth_focus faces fw fh hist).2.length →
        (calculate_smooth_focus faces fw fh hist).1 =
          (meanLast3 ((calculate_smooth_focus faces fw fh hist).2.map Prod.fst),
            meanLast3 ((calculate_smooth_focus faces fw fh hist).2.map Prod.snd))) ∧
      ((calculate_smooth_focus faces fw fh hist).2.length < 3 →
        (calculate_smooth_focus faces fw fh hist).1 =
          (pyTrunc (totalX faces / totalWeight faces),
            pyTrunc (totalY faces / totalWeight faces)))) := by
  constructor
  · rintro rfl
    simp only [calculate_smooth_focus, List.getLastD_eq_getLast?]
    cases hist.getLast? <;> rfl
  · intro hne htw
    cases faces with
    | nil => exact absurd rfl hne
    | cons d tl =>
      simp only [calculate_smooth_focus, if_pos htw]
      refine ⟨pushHistory_eq_drop hist _ hcap, pushHistory_length_le hist _ hcap, ?_, ?_⟩
      · intro h3
        rw [if_pos h3]
      · intro h3
        rw [if_neg (not_le.mpr h3)]

/-- C5 witness: one 2×2 full-confidence detection at the origin in a
10×8 frame with empty history appends centroid (1, 1) and stays within
capacity. -/
theorem smooth_focus_spec_witness :
    (calculate_smooth_focus [⟨0, 0, 2, 2, 1⟩] 10 8 []).2 =
        ([] ++ [(pyTrunc (totalX [⟨0, 0, 2, 2, 1⟩] / totalWeight [⟨0, 0, 2, 2, 1⟩]),
          pyTrunc (totalY [⟨0, 0, 2, 2, 1⟩] / totalWeight [⟨0, 0, 2, 2, 1⟩]))]).drop
          (List.length ([] : List (ℤ × ℤ)) + 1 - 10) ∧
      (calculate_smooth_focus [⟨0, 0, 2, 2, 1⟩] 10 8 []).2.length ≤ 10 :=
  have h := (smooth_focus_spec [⟨0, 0, 2, 2, 1⟩] 10 8 [] (by simp)).2
    (by simp) (by with_unfolding_all decide)
  ⟨h.1, h.2.1⟩

/-! ### C6: per-sample letterbox eligibility -/

/-- C6: the crop candidate of a sample is LETTERBOX exactly when the target
ratio is portrait, at least two detections were fused, the enclosing
group box has positive height, `faceAspect > 1.5` and
`horizontalSeparation > 0.4`; in every other case (landscape or square
target, fewer than two detections, zero group height, or failed
thresholds) the candidate is STANDARD (`smart`), and the
`letterbox` flag agrees. -/
theorem sample_mode_classification (faces : List Det) (fw fh : ℤ) (aw ah : ℚ)
    (hist : List (ℤ × ℤ)) (hne : faces ≠ []) :
    ((calculate_dynamic_crop faces fw fh aw ah hist).1).map CropPlan.mode =
      some (if aw / ah < 1 ∧ 2 ≤ faces.length ∧ 0 < groupH faces ∧
          3 / 2 < groupW faces / groupH faces ∧ 2 / 5 < groupW faces / (fw : ℚ)
        then Mode.letterbox else Mode.smart) ∧
    ((calculate_dynamic_crop faces fw fh aw ah hist).1).map CropPlan.letterbox =
      some (if aw / ah < 1 ∧ 2 ≤ faces.length ∧ 0 < groupH faces ∧
          3 / 2 < groupW faces / groupH faces ∧ 2 / 5 < groupW faces / (fw : ℚ)
        then true else false) := by
  cases faces with
  | nil => exact absurd rfl hne
  | cons d tl =>
    simp only [calculate_dynamic_crop]
    constructor
    · split <;> rfl
    · split <;> rfl

/-- C6 witness: Scenario B — two detections `(100,400,80,80)` and
`(1700,420,80,80)` in a 1920×1080 frame with 9:16 target are flagged
letterbox-eligible. -/
theorem sample_mode_classification_witness :
    ((calculate_dynamic_crop [⟨100, 400, 80, 80, 1⟩, ⟨1700, 420, 80, 80, 1⟩]
        1920 1080 9 16 []).1).map CropPlan.mode = some Mode.letterbox :=
  (sample_mode_classification [⟨100, 400, 80, 80, 1⟩, ⟨1700, 420, 80, 80, 1⟩]
      1920 1080 9 16 [] (by simp)).1.trans (by with_unfolding_all decide)

/-! ### C1: clip-level hysteresis and the eligible-candidate pick -/

/-- C1: the final aggregate mode is LETTERBOX iff both
`averageSubjectCount ≥ 2.0` and `letterboxRate > 0.6` hold (rate =
eligible candidates over all candidates); when the condition holds the
returned plan is the element at index `len(eligible) // 2` of the
eligible list in capture order, and otherwise the final mode is the
STANDARD aggregate `smart_smooth` even if some samples were
individually eligible.  The well-formedness hypothesis records that
candidates flag `letterbox` exactly when their mode is LETTERBOX, as
every candidate emitted by `calculate_dynamic_crop` does. -/
theorem aggregate_hysteresis (cs : List CropPlan) (counts : List ℕ) (hne : cs ≠ [])
    (hwf : ∀ c ∈ cs, c.letterbox = true ↔ c.mode = Mode.letterbox) :
    ((aggregate cs counts).map CropPlan.mode = some Mode.letterbox ↔
      (2 ≤ avgCount counts ∧
        3 / 5 < ((cs.filter fun c => c.letterbox).length : ℚ) / (cs.length : ℚ))) ∧
    ((2 ≤ avgCount counts ∧
        3 / 5 < ((cs.filter fun c => c.letterbox).length : ℚ) / (cs.length : ℚ)) →
      aggregate cs counts =
        (cs.filter fun c => c.letterbox).get? ((cs.filter fun c => c.letterbox).length / 2)) ∧
    (¬(2 ≤ avgCount counts ∧
        3 / 5 < ((cs.filter fun c => c.letterbox).length : ℚ) / (cs.length : ℚ)) →
      (aggregate cs counts).map CropPlan.mode = some Mode.smart_smooth) := by
  cases cs with
  | nil => exact absurd rfl hne
  | cons c0 tl =>
    simp only [aggregate]
    by_cases hc : 2 ≤ avgCount counts ∧
        3 / 5 < (((c0 :: tl).filter fun c => c.letterbox).length : ℚ) / ((c0 :: tl).length : ℚ)
    · rw [if_pos hc]
      have hlen : 0 < ((c0 :: tl).filter fun c => c.letterbox).length := by
        rcases Nat.eq_zero_or_pos ((c0 :: tl).filter fun c => c.letterbox).length with h0 | h0
        · exfalso
          rw [h0] at hc
          norm_num at hc
        · exact h0
      have hidx : ((c0 :: tl).filter fun c => c.letterbox).length / 2 <
          ((c0 :: tl).filter fun c => c.letterbox).length :=
        Nat.div_lt_self hlen one_lt_two
      have hget := List.get?_eq_get hidx
      have hmem : ((c0 :: tl).filter fun c => c.letterbox).get
          ⟨((c0 :: tl).filter fun c => c.letterbox).length / 2, hidx⟩ ∈
          (c0 :: tl).filter fun c => c.letterbox := List.get_mem _ _ hidx
      have hflag : (((c0 :: tl).filter fun c => c.letterbox).get
          ⟨((c0 :: tl).filter fun c => c.letterbox).length / 2, hidx⟩).letterbox = true :=
        List.of_mem_filter hmem
      have hmode := (hwf _ (List.mem_of_mem_filter hmem)).mp hflag
      rw [hget]
      exact ⟨iff_of_true (congrArg some hmode) hc, fun _ => rfl,
        fun hnc => absurd hc hnc⟩
    · rw [if_neg hc]
      refine ⟨iff_of_false (by simp) hc, fun h => absurd h hc, fun _ => by simp⟩

/-- C1 witness: three candidates, two of them letterbox-eligible
(rate 2/3 > 0.6) with average subject count 2 — the aggregate mode is
LETTERBOX. -/
theorem aggregate_hysteresis_witness :
    (aggregate [⟨Mode.letterbox, 0, 0, 10, 10, true, 2⟩,
        ⟨Mode.letterbox, 5, 5, 10, 10, true, 2⟩,
        ⟨Mode.smart, 1, 1, 4, 4, false, 1⟩] [2, 2, 2]).map CropPlan.mode =
      some Mode.letterbox :=
  (aggregate_hysteresis [⟨Mode.letterbox, 0, 0, 10, 10, true, 2⟩,
      ⟨Mode.letterbox, 5, 5, 10, 10, true, 2⟩,
      ⟨Mode.smart, 1, 1, 4, 4, false, 1⟩] [2, 2, 2] (by simp)
    (by with_unfolding_all decide)).1.mpr (by with_unfolding_all decide)

/-! ### C7: the median pool of the standard aggregate -/

theorem insertAsc_perm (n : ℤ) : ∀ l : List ℤ, List.Perm (insertAsc n l) (n :: l)
  | [] => List.Perm.refl _
  | m :: rest => by
    simp only [insertAsc]
    split
    · exact ((insertAsc_perm n rest).cons m).trans (List.Perm.swap n m rest)
    · exact List.Perm.refl _

theorem sortInt_perm (l : List ℤ) : List.Perm (sortInt l) l := by
  suffices h : ∀ (l acc : List ℤ),
      List.Perm (List.foldl (fun acc n => insertAsc n acc) acc l) (acc ++ l) by
    simpa using h l []
  intro l
  induction l with
  | nil => intro acc; simp
  | cons n tl ih =>
    intro acc
    calc List.foldl (fun acc n => insertAsc n acc) acc (n :: tl)
        = List.foldl (fun acc n => insertAsc n acc) (insertAsc n acc) tl := rfl
      _ ~ insertAsc n acc ++ tl := ih _
      _ ~ (n :: acc) ++ tl := (insertAsc_perm n acc).append_right tl
      _ ~ acc ++ n :: tl := List.perm_middle.symm

theorem insertAsc_pairwise {l : List ℤ} (h : l.Pairwise (· ≤ ·)) (n : ℤ) :
    (insertAsc n l).Pairwise (· ≤ ·) := by
  induction l with
  | nil => simp [insertAsc]
  | cons m rest ih =>
    rw [List.pairwise_cons] at h
    simp only [insertAsc]
    split
    · rename_i hle
      rw [List.pairwise_cons]
      refine ⟨fun e he => ?_, ih h.2⟩
      rcases List.mem_cons.mp ((insertAsc_perm n rest).mem_iff.mp he) with rfl | he2
      · exact hle
      · exact h.1 e he2
    · rename_i hnle
      rw [List.pairwise_cons]
      refine ⟨fun e he => ?_, List.pairwise_cons.mpr h⟩
      rcases List.mem_cons.mp he with rfl | he2
      · exact le_of_lt (not_le.mp hnle)
      · exact le_trans (le_of_lt (not_le.mp hnle)) (h.1 e he2)

theorem sortInt_pairwise (l : List ℤ) : (sortInt l).Pairwise (· ≤ ·) := by
  suffices h : ∀ (l acc : List ℤ), acc.Pairwise (· ≤ ·) →
      (List.foldl (fun acc n => insertAsc n acc) acc l).Pairwise (· ≤ ·) by
    exact h l [] List.Pairwise.nil
  intro l
  induction l with
  | nil => intro acc hacc; simpa using hacc
  | cons n tl ih => intro acc hacc; exact ih _ (insertAsc_pairwise hacc n)

/-- C7 counterexample: when the hysteresis condition fails, the
per-field medians are taken over ALL candidates, letterbox-eligible ones
included — here the emitted `crop_x` is 50, the x of the letterbox
candidate, while the median over the STANDARD-only pool (sorted, middle
index) would be 100. -/
theorem aggregate_median_pool_counterexample :
    (aggregate [⟨Mode.smart, 0, 0, 607, 1080, false, 1⟩,
        ⟨Mode.letterbox, 50, 0, 1920, 1080, true, 2⟩,
        ⟨Mode.smart, 100, 0, 607, 1080, false, 1⟩] [1, 2, 1]).map CropPlan.crop_x =
      some 50 ∧
    (sortInt ((([⟨Mode.smart, 0, 0, 607, 1080, false, 1⟩,
        ⟨Mode.letterbox, 50, 0, 1920, 1080, true, 2⟩,
        ⟨Mode.smart, 100, 0, 607, 1080, false, 1⟩] : List CropPlan).filter
          fun c => !c.letterbox).map fun c => c.crop_x)).getD
      ((([⟨Mode.smart, 0, 0, 607, 1080, false, 1⟩,
        ⟨Mode.letterbox, 50, 0, 1920, 1080, true, 2⟩,
        ⟨Mode.smart, 100, 0, 607, 1080, false, 1⟩] : List CropPlan).filter
          fun c => !c.letterbox).length / 2) 0 = 100 ∧
    (50 : ℤ) ≠ 100 := by
  with_unfolding_all decide

/-- C7 amended: when the hysteresis condition fails, each field of the
final STANDARD plan is the independent per-field median over ALL sample
candidates — letterbox-eligible candidates are NOT excluded from the
pool — where "median" means: sort the values of that field ascending
(`sortInt` is a sorted permutation, as the last conjunct states) and
take index `len(all) // 2`. -/
theorem aggregate_median_over_all (cs : List CropPlan) (counts : List ℕ) (hne : cs ≠ [])
    (hnc : ¬(2 ≤ avgCount counts ∧
      3 / 5 < ((cs.filter fun c => c.letterbox).length : ℚ) / (cs.length : ℚ))) :
    ((aggregate cs counts).map CropPlan.crop_x =
        some ((sortInt (cs.map fun c => c.crop_x)).getD (cs.length / 2) 0)) ∧
    ((aggregate cs counts).map CropPlan.crop_y =
        some ((sortInt (cs.map fun c => c.crop_y)).getD (cs.length / 2) 0)) ∧
    ((aggregate cs counts).map CropPlan.crop_w =
        some ((sortInt (cs.map fun c => c.crop_w)).getD (cs.length / 2) 0)) ∧
    ((aggregate cs counts).map CropPlan.crop_h =
        some ((sortInt (cs.map fun c => c.crop_h)).getD (cs.length / 2) 0)) ∧
    ((aggregate cs counts).map CropPlan.mode = some Mode.smart_smooth) ∧
    (∀ l : List ℤ, List.Perm (sortInt l) l ∧ (sortInt l).Pairwise (· ≤ ·)) := by
  cases cs with
  | nil => exact absurd rfl hne
  | cons c0 tl =>
    simp only [aggregate]
    rw [if_neg hnc]
    exact ⟨rfl, rfl, rfl, rfl, rfl, fun l => ⟨sortInt_perm l, sortInt_pairwise l⟩⟩

/-- C7 amended, witness on the counterexample candidates: the standard
aggregate is emitted with the all-candidate median. -/
theorem aggregate_median_over_all_witness :
    (aggregate [⟨Mode.smart, 0, 0, 607, 1080, false, 1⟩,
        ⟨Mode.letterbox, 50, 0, 1920, 1080, true, 2⟩,
        ⟨Mode.smart, 100, 0, 607, 1080, false, 1⟩] [1, 2, 1]).map CropPlan.mode =
      some Mode.smart_smooth :=
  (aggregate_median_over_all [⟨Mode.smart, 0, 0, 607, 1080, false, 1⟩,
      ⟨Mode.letterbox, 50, 0, 1920, 1080, true, 2⟩,
      ⟨Mode.smart, 100, 0, 607, 1080, false, 1⟩] [1, 2, 1] (by simp)
    (by with_unfolding_all decide)).2.2.2.2.1

/-! ### C8: a failed frame read stops the sampling loop -/

theorem aggregate_eq_none_iff (cs : List CropPlan) (counts : List ℕ) :
    aggregate cs counts = none ↔ cs = [] := by
  cases cs with
  | nil => simp [aggregate]
  | cons c0 tl =>
    simp only [aggregate]
    constructor
    · intro h
      exfalso
      by_cases hc : 2 ≤ avgCount counts ∧
          3 / 5 < (((c0 :: tl).filter fun c => c.letterbox).length : ℚ) / ((c0 :: tl).length : ℚ)
      · rw [if_pos hc] at h
        have hlen : 0 < ((c0 :: tl).filter fun c => c.letterbox).length := by
          rcases Nat.eq_zero_or_pos ((c0 :: tl).filter fun c => c.letterbox).length with h0 | h0
          · rw [h0] at hc
            norm_num at hc
          · exact h0
        have hidx : ((c0 :: tl).filter fun c => c.letterbox).length / 2 <
            ((c0 :: tl).filter fun c => c.letterbox).length :=
          Nat.div_lt_self hlen one_lt_two
        rw [List.get?_eq_get hidx] at h
        exact Option.noConfusion h
      · rw [if_neg hc] at h
        exact Option.noConfusion h
    · intro h
      exact List.noConfusion h

/-- C8 counterexample: a failed read at sample index 1 aborts the loop
(`break`), so the detection-bearing sample at index 2 is never
processed and the whole analysis returns no decision, while the same
samples without the failure produce a plan. -/
theorem frame_failure_counterexample :
    (analyze_video_smooth 1920 1080 9 16
        [some [], none, some [⟨900, 500, 100, 100, 1⟩]] []).1 = none ∧
    (analyze_video_smooth 1920 1080 9 16
        [some [], some [⟨900, 500, 100, 100, 1⟩]] []).1 ≠ none := by
  with_unfolding_all decide

/-- C8 amended: a frame-read failure STOPS sampling at that index — the
loop result on `pre ++ failure :: rest` equals its result on `pre`
alone, for any suffix `rest` — and the analysis returns "no decision"
(`none`) exactly when the candidates gathered before the stop are
empty. -/
theorem frame_failure_stops_loop (fw fh : ℤ) (aw ah : ℚ)
    (pre rest : List (Option (List Det))) (st : LoopState)
    (hpre : ∀ s ∈ pre, s ≠ none) :
    controllerLoop fw fh aw ah (pre ++ none :: rest) st = controllerLoop fw fh aw ah pre st ∧
    ∀ (cs : List CropPlan) (counts : List ℕ), (aggregate cs counts = none ↔ cs = []) := by
  refine ⟨?_, aggregate_eq_none_iff⟩
  induction pre generalizing st with
  | nil => rfl
  | cons s pre2 ih =>
    cases s with
    | none => exact absurd rfl (hpre none (List.mem_cons_self _ _))
    | some faces =>
      simp only [List.cons_append, controllerLoop]
      exact ih _ fun s hs => hpre s (List.mem_cons_of_mem _ hs)

/-- C8 amended, witness: with one good sample before the failure, the
loop result matches processing just that sample. -/
theorem frame_failure_stops_loop_witness :
    controllerLoop 1920 1080 9 16
        ([some []] ++ none :: [some [⟨900, 500, 100, 100, 1⟩]]) ⟨[], [], []⟩ =
      controllerLoop 1920 1080 9 16 [some []] ⟨[], [], []⟩ :=
  (frame_failure_stops_loop 1920 1080 9 16 [some []] [some [⟨900, 500, 100, 100, 1⟩]]
    ⟨[], [], []⟩ (by simp)).1

/-! ### C4: tracker history carried across analyses -/

/-- C4 counterexample: the module keeps one global
`AdvancedSmartCropper` whose `tracking_history` is never cleared, so the
same video analysed with the same arguments yields a different decision
when stale history from an earlier analysis is present: with leftover
entries `(0,0), (0,0)` the smoothed focus shifts and the emitted
`crop_x` changes (13 instead of 647). -/
theorem history_isolation_counterexample :
    (analyze_video_smooth 1920 1080 9 16
        [some [⟨900, 500, 100, 100, 1⟩]] [(0, 0), (0, 0)]).1 ≠
      (analyze_video_smooth 1920 1080 9 16 [some [⟨900, 500, 100, 100, 1⟩]] []).1 := by
  with_unfolding_all decide

/-- C4 amended: `analyze_video_smooth` reads and extends the global
persistent tracking history of the global cropper rather than starting from a fresh
one, so its decision DOES depend on history carried over from earlier
analyses: stale entries `(100,100), (100,100)` change the result for
the very same video and arguments. -/
theorem history_carryover_dependence :
    (analyze_video_smooth 1920 1080 9 16
        [some [⟨900, 500, 100, 100, 1⟩]] [(100, 100), (100, 100)]).1 ≠
      (analyze_video_smooth 1920 1080 9 16 [some [⟨900, 500, 100, 100, 1⟩]] []).1 := by
  with_unfolding_all decide

/-! ### C3: the aspect-ratio invariant -/

/-- C3 counterexample, two parts.  Letterbox: the Scenario B plan has a
1920×1080 (16:9) region although the requested target is 9:16, so
`|w/h - targetAspect| ≤ 1/h` fails wildly.  Standard: in a 1002×564
frame with 16:9 target the emitted region is 1002×563 and
`|1002/563 - 16/9| = 10/5067 > 9/5067 = 1/563`, breaking the one-pixel
bound even against the requested aspect. -/
theorem aspect_invariant_counterexample :
    ((calculate_dynamic_crop [⟨100, 400, 80, 80, 1⟩, ⟨1700, 420, 80, 80, 1⟩]
        1920 1080 9 16 []).1 = some ⟨Mode.letterbox, 0, 0, 1920, 1080, true, 2⟩ ∧
      ¬(|(1920 : ℚ) / 1080 - 9 / 16| ≤ 1 / 1080)) ∧
    ((calculate_dynamic_crop [⟨0, 0, 10, 10, 1⟩] 1002 564 16 9 []).1 =
        some ⟨Mode.smart, 0, 0, 1002, 563, false, 1⟩ ∧
      ¬(|(1002 : ℚ) / 563 - 16 / 9| ≤ 1 / 563)) := by
  with_unfolding_all decide

theorem pyTrunc_bounds {q : ℚ} (hq : 0 ≤ q) :
    (pyTrunc q : ℚ) ≤ q ∧ q < (pyTrunc q : ℚ) + 1 := by
  have hnum : 0 ≤ q.num := Rat.num_nonneg.mpr hq
  have hden : (0 : ℤ) < (q.den : ℤ) := by exact_mod_cast q.pos
  have h1 := Int.ediv_add_emod q.num (q.den : ℤ)
  have h2 := Int.emod_nonneg q.num (ne_of_gt hden)
  have h3 := Int.emod_lt_of_pos q.num hden
  have hlow : (q.den : ℤ) * (q.num / (q.den : ℤ)) ≤ q.num := by omega
  have hhigh : q.num < (q.den : ℤ) * (q.num / (q.den : ℤ)) + (q.den : ℤ) := by omega
  have hdenQ : (0 : ℚ) < (q.den : ℚ) := by exact_mod_cast hden
  have htr : pyTrunc q = q.num / (q.den : ℤ) := by
    unfold pyTrunc; exact Int.tdiv_eq_ediv hnum (le_of_lt hden)
  have hlowQ : (q.den : ℚ) * (pyTrunc q : ℚ) ≤ (q.num : ℚ) := by
    rw [htr]; exact_mod_cast hlow
  have hhighQ : (q.num : ℚ) < (q.den : ℚ) * (pyTrunc q : ℚ) + (q.den : ℚ) := by
    rw [htr]; exact_mod_cast hhigh
  constructor
  · conv_rhs => rw [← Rat.num_div_den q]
    rw [le_div_iff₀ hdenQ]
    linarith [hlowQ]
  · conv_lhs => rw [← Rat.num_div_den q]
    rw [div_lt_iff₀ hdenQ]
    linarith [hhighQ]

theorem ratio_close {w h A M : ℚ} (hh : 0 < h) (h1 : A * h - M ≤ w) (h2 : w ≤ A * h + M) :
    |w / h - A| ≤ M / h := by
  rw [abs_sub_le_iff]
  constructor
  · rw [div_sub' _ _ _ (ne_of_gt hh)]
    exact (div_le_div_iff_of_pos_right hh).mpr (by linarith)
  · rw [sub_div' _ _ _ (ne_of_gt hh)]
    exact (div_le_div_iff_of_pos_right hh).mpr (by linarith)

/-- C3 amended: the width:height ratio of every emitted region approximates
the intended aspect of the MODE — the requested target `aw/ah` for STANDARD
but 16:9 for LETTERBOX (not the requested ratio) — and only within
`max 1 A / region.height` rather than `1/region.height`: the one-pixel
bound as claimed holds only in the branches that derive the width from a
fixed height. -/
theorem aspect_invariant_amended (faces : List Det) (fw fh : ℤ) (aw ah : ℚ)
    (hist : List (ℤ × ℤ)) (hfw : 2 ≤ fw) (hfh : 0 < fh) (haw : 0 < aw) (hah : 0 < ah)
    (hta : aw / ah ≤ (fw : ℚ)) :
    ∀ plan : CropPlan, (calculate_dynamic_crop faces fw fh aw ah hist).1 = some plan →
      0 < plan.crop_h ∧
      |(plan.crop_w : ℚ) / (plan.crop_h : ℚ) -
          (if plan.mode = Mode.letterbox then 16 / 9 else aw / ah)| ≤
        max 1 (if plan.mode = Mode.letterbox then 16 / 9 else aw / ah) / (plan.crop_h : ℚ) := by
  have hfwQ : (2 : ℚ) ≤ (fw : ℚ) := by exact_mod_cast hfw
  have hfhQ : (0 : ℚ) < (fh : ℚ) := by exact_mod_cast hfh
  have hta0 : 0 < aw / ah := div_pos haw hah
  cases faces with
  | nil => intro plan h; simp [calculate_dynamic_crop] at h
  | cons d tl =>
    intro plan h
    simp only [calculate_dynamic_crop] at h
    split at h
    · -- letterbox branch
      rw [Option.some.injEq] at h
      have hmode : plan.mode = Mode.letterbox := by rw [← h]
      have hcw : plan.crop_w =
          (if fw < pyTrunc ((fh : ℚ) * 16 / 9) then fw else pyTrunc ((fh : ℚ) * 16 / 9)) := by
        rw [← h]
      have hch : plan.crop_h =
          (if fw < pyTrunc ((fh : ℚ) * 16 / 9) then pyTrunc ((fw : ℚ) * 9 / 16) else fh) := by
        rw [← h]
      rw [hmode, hcw, hch, if_pos rfl, max_eq_right (by norm_num : (1 : ℚ) ≤ 16 / 9)]
      by_cases hb : fw < pyTrunc ((fh : ℚ) * 16 / 9)
      · -- width fixed to the frame, height derived
        simp only [if_pos hb]
        have hq : (0 : ℚ) ≤ (fw : ℚ) * 9 / 16 := by linarith
        obtain ⟨hl, hr⟩ := pyTrunc_bounds hq
        have hpos : (0 : ℚ) < (pyTrunc ((fw : ℚ) * 9 / 16) : ℚ) := by linarith
        have hposZ : 0 < pyTrunc ((fw : ℚ) * 9 / 16) := by exact_mod_cast hpos
        exact ⟨hposZ, ratio_close hpos (by linarith) (by linarith)⟩
      · -- height fixed to the frame, width derived
        simp only [if_neg hb]
        have hq : (0 : ℚ) ≤ (fh : ℚ) * 16 / 9 := by linarith
        obtain ⟨hl, hr⟩ := pyTrunc_bounds hq
        exact ⟨hfh, ratio_close hfhQ (by linarith) (by linarith)⟩
    · -- standard branch
      rw [Option.some.injEq] at h
      have hmode : plan.mode = Mode.smart := by rw [← h]
      have hcw : plan.crop_w =
          (if (fw : ℚ) / (fh : ℚ) < aw / ah then fw else pyTrunc ((fh : ℚ) * (aw / ah))) := by
        rw [← h]
      have hch : plan.crop_h =
          (if (fw : ℚ) / (fh : ℚ) < aw / ah then pyTrunc ((fw : ℚ) / (aw / ah)) else fh) := by
        rw [← h]
      rw [hmode, hcw, hch, if_neg (by decide : ¬(Mode.smart = Mode.letterbox))]
      by_cases hb : (fw : ℚ) / (fh : ℚ) < aw / ah
      · -- target wider than the frame: width fixed, height derived
        simp only [if_pos hb]
        have hq : (0 : ℚ) ≤ (fw : ℚ) / (aw / ah) := le_of_lt (div_pos (by linarith) hta0)
        have hq1 : (1 : ℚ) ≤ (fw : ℚ) / (aw / ah) := (one_le_div hta0).mpr hta
        obtain ⟨hl, hr⟩ := pyTrunc_bounds hq
        have hpos : (0 : ℚ) < (pyTrunc ((fw : ℚ) / (aw / ah)) : ℚ) := by linarith
        have hposZ : 0 < pyTrunc ((fw : ℚ) / (aw / ah)) := by exact_mod_cast hpos
        have hmul1 : aw / ah * (pyTrunc ((fw : ℚ) / (aw / ah)) : ℚ) ≤ (fw : ℚ) := by
          have h4 := (le_div_iff₀ hta0).mp hl
          linarith [h4]
        have hmul2 : (fw : ℚ) <
            aw / ah * (pyTrunc ((fw : ℚ) / (aw / ah)) : ℚ) + aw / ah := by
          have h4 := (div_lt_iff₀ hta0).mp hr
          nlinarith [h4]
        have hM : aw / ah ≤ max 1 (aw / ah) := le_max_right 1 (aw / ah)
        have hM1 : (1 : ℚ) ≤ max 1 (aw / ah) := le_max_left 1 (aw / ah)
        exact ⟨hposZ, ratio_close hpos (by linarith) (by linarith)⟩
      · -- frame wider than the target: height fixed, width derived
        simp only [if_neg hb]
        have hq : (0 : ℚ) ≤ (fh : ℚ) * (aw / ah) := by positivity
        obtain ⟨hl, hr⟩ := pyTrunc_bounds hq
        have hM1 : (1 : ℚ) ≤ max 1 (aw / ah) := le_max_left 1 (aw / ah)
        have hcomm : (fh : ℚ) * (aw / ah) = aw / ah * (fh : ℚ) := mul_comm _ _
        refine ⟨hfh, ratio_close hfhQ ?_ ?_⟩
        · linarith [hr, hM1]
        · linarith [hl, hM1]

/-- C3 amended, witness: the Scenario B letterbox plan (1920×1080
region) against the intended 16:9 aspect of its mode. -/
theorem aspect_invariant_amended_witness :
    0 < (⟨Mode.letterbox, 0, 0, 1920, 1080, true, 2⟩ : CropPlan).crop_h ∧
    |((⟨Mode.letterbox, 0, 0, 1920, 1080, true, 2⟩ : CropPlan).crop_w : ℚ) /
        ((⟨Mode.letterbox, 0, 0, 1920, 1080, true, 2⟩ : CropPlan).crop_h : ℚ) -
        (if (⟨Mode.letterbox, 0, 0, 1920, 1080, true, 2⟩ : CropPlan).mode = Mode.letterbox
          then 16 / 9 else 9 / 16)| ≤
      max 1 (if (⟨Mode.letterbox, 0, 0, 1920, 1080, true, 2⟩ : CropPlan).mode = Mode.letterbox
          then 16 / 9 else 9 / 16) /
        ((⟨Mode.letterbox, 0, 0, 1920, 1080, true, 2⟩ : CropPlan).crop_h : ℚ) :=
  aspect_invariant_amended [⟨100, 400, 80, 80, 1⟩, ⟨1700, 420, 80, 80, 1⟩] 1920 1080 9 16 []
    (by norm_num) (by norm_num) (by norm_num) (by norm_num) (by norm_num)
    ⟨Mode.letterbox, 0, 0, 1920, 1080, true, 2⟩ (by with_unfolding_all decide)

end SmartCrop
